import Mathlib

/-!
# CSVTranspose

A shallow embedding of `CSVTranspose.cpp` (one function, `main`) and the
properties of it that the specification states.

Strings (`std::string`) are lists of characters.  The input file is a text;
the input stream carries the text not yet read and the two state bits that the
program inspects.  The output file is the text written so far.
-/

namespace CSVTranspose

/-- The type of `std::string` values. -/
abbrev Str := List Char

/-! ## The input stream -/

/-- An `ifstream` opened on a text: the unread characters, `eofbit` and
`failbit`.  (`badbit` is raised only by a failing device, which a text is
not, so `fail()` is `failbit`.) -/
structure IStream where
  rest : Str
  eofbit : Bool
  failbit : Bool
deriving DecidableEq

/-- The stream right after `input_CSV.open(argv[1])` succeeded. -/
def IStream.ofText (t : Str) : IStream := ⟨t, false, false⟩

/-- The member `good()`: no state bit is set. -/
def IStream.good (s : IStream) : Bool := !s.eofbit && !s.failbit

/-- The member `fail()`. -/
def IStream.fail (s : IStream) : Bool := s.failbit

/-- The member `eof()`. -/
def IStream.eof (s : IStream) : Bool := s.eofbit

/-- The character extraction of `getline`: characters are moved to the line
until a newline is met, which is consumed and not stored (the second
component is then the text after it), or until the text ends (second
component `none`). -/
def extractLine : Str → Str × Option Str
  | [] => ([], none)
  | c :: cs =>
    if c = '\n' then ([], some cs)
    else ((c :: (extractLine cs).1), (extractLine cs).2)

/-- The call `getline(input_CSV, str)`.  On a stream that is not good the sentry sets
`failbit` and `str` is left as it was.  Otherwise `str` is erased and filled
by `extractLine`; meeting the end of the text sets `eofbit`, and also
`failbit` when nothing at all was extracted. -/
def getline (s : IStream) (str : Str) : IStream × Str :=
  if s.good then
    match extractLine s.rest with
    | (line, some after) => ({ s with rest := after }, line)
    | (line, none) => ({ rest := [], eofbit := true, failbit := line.isEmpty }, line)
  else ({ s with failbit := true }, str)

/-! ## The output stream -/

/-- An `ofstream` opened with `trunc`: the text written so far, whether the
stream is still good, and how many more lines the device accepts (`none`: it
never fails). -/
structure OStream where
  content : Str
  isGood : Bool
  room : Option Nat
deriving DecidableEq

/-- The stream right after `output_CSV.open(argv[2], fstream::trunc)`
succeeded. -/
def OStream.opened (room : Option Nat) : OStream := ⟨[], true, room⟩

/-- The statement `output_CSV << temp_output << endl`: the line and a newline are written,
unless the device accepts no more, in which case the stream stops being
good. -/
def OStream.putLine (o : OStream) (line : Str) : OStream :=
  match o.room with
  | none => { o with content := o.content ++ line ++ ['\n'] }
  | some 0 => { o with isGood := false }
  | some (k + 1) => { o with content := o.content ++ line ++ ['\n'], room := some k }

/-! ## The loops of `main` -/

/-- The locals that the row loops of `main` share: the queue `output_rows`
(front first) and `element`. -/
structure Locals where
  output_rows : List Str
  element : Str
deriving DecidableEq

/-- Lines 95-98 and 107-110: pop the front string, append a comma and
`element` to it, push it at the back.  (Both callers run after the
`output_rows.empty()` check.) -/
def rotate (q : List Str) (element : Str) : List Str :=
  match q with
  | [] => []
  | front :: others => others ++ [front ++ ',' :: element]

/-- The `for` loop of lines 64-77 over the characters of the first row that
are still to be visited: `c :: cs` is `input_row` from index `i` on, so
`i == input_row.size()-1` is `cs = []`. -/
def firstRowLoop : Str → Locals → Locals
  | [], v => v
  | c :: cs, v =>
    if cs.isEmpty then
      { output_rows := v.output_rows ++ [v.element ++ [c]], element := [] }
    else if c = ',' then
      firstRowLoop cs { output_rows := v.output_rows ++ [v.element], element := [] }
    else
      firstRowLoop cs { v with element := v.element ++ [c] }

/-- The `for` loop of lines 87-116 over the characters of a later row that
are still to be visited, with the current `row_size`.  An `error` is the
status that `main` returns from inside the loop (4 or 5).  `row_size` and
`queue_size` are `size_t`; `row_size` is at most the length of a string, so
it never wraps. -/
def bodyRowLoop (queue_size : Nat) : Str → Locals → Nat → Except Nat Locals
  | [], v, _ => .ok v
  | c :: cs, v, row_size =>
    if v.output_rows.isEmpty then .error 4
    else if cs.isEmpty then
      if row_size + 1 ≠ queue_size then .error 5
      else .ok { output_rows := rotate v.output_rows (v.element ++ [c]), element := [] }
    else if c = ',' then
      bodyRowLoop queue_size cs
        { output_rows := rotate v.output_rows v.element, element := [] } (row_size + 1)
    else
      bodyRowLoop queue_size cs { v with element := v.element ++ [c] } row_size

/-- The emission loop of lines 140-145. -/
def emit : List Str → OStream → OStream
  | [], o => o
  | temp_output :: others, o =>
    if o.isGood then emit others (o.putLine temp_output) else o

/-! ## `main` -/

/-- What the program is run on: `argc`, the text of the file named by
`argv[1]` (`none`: it cannot be opened), whether the file named by `argv[2]`
can be opened for writing, and how many lines that file accepts before
writing fails (`none`: all). -/
structure Env where
  argc : Nat
  input : Option Str
  outputOpens : Bool
  outputRoom : Option Nat
deriving DecidableEq

/-- What a run leaves: the exit status and the text of the output file,
`none` when `output_CSV.open` was not reached or did not succeed. -/
structure Result where
  status : Nat
  output : Option Str
deriving DecidableEq

/-- Lines 124-148: the end-of-file check, opening the output, emission. -/
def finish (e : Env) (s : IStream) (output_rows : List Str) : Result :=
  if s.eof != true then ⟨3, none⟩
  else if !e.outputOpens then ⟨6, none⟩
  else ⟨0, some (emit output_rows (OStream.opened e.outputRoom)).content⟩

/-- The `while` loop of lines 84-123 followed by the rest of `main`, entered
with the stream and `input_row` as the last `getline` left them.  The first
argument bounds the number of iterations; `none` means the bound was
reached. -/
def bodyRows (e : Env) (queue_size : Nat) : Nat → IStream → Str → Locals → Option Result
  | 0, _, _, _ => none
  | fuel + 1, s, input_row, v =>
    if s.good || !s.fail then
      match bodyRowLoop queue_size input_row v 0 with
      | .error status => some ⟨status, none⟩
      | .ok v1 =>
        if !s.eof then
          bodyRows e queue_size fuel (getline s input_row).1 (getline s input_row).2 v1
        else some (finish e s v1.output_rows)
    else some (finish e s v.output_rows)

/-- The function `main`.  Every iteration of the `while` loop but the last
follows a `getline` that consumed a newline, so the length of the text plus
one bounds the iterations. -/
def main (e : Env) : Option Result :=
  if e.argc < 3 then some ⟨1, none⟩
  else
    match e.input with
    | none => some ⟨2, none⟩
    | some t =>
      let r1 := getline (IStream.ofText t) []
      if r1.1.fail then some ⟨3, none⟩
      else
        let v := firstRowLoop r1.2 { output_rows := [], element := [] }
        let queue_size := v.output_rows.length
        let r2 := getline r1.1 r1.2
        bodyRows e queue_size (t.length + 1) r2.1 r2.2 v

/-- A run of the program on the text `t` in which both files open and
writing never fails. -/
def run (t : Str) : Option Result :=
  main { argc := 3, input := some t, outputOpens := true, outputRoom := none }

/-! ## The specification's vocabulary -/

/-- Split a string on every occurrence of `d`; a string of length zero gives
one empty piece. -/
def splitOn (d : Char) : Str → List Str
  | [] => [[]]
  | c :: cs =>
    if c = d then [] :: splitOn d cs
    else (c :: (splitOn d cs).headD []) :: (splitOn d cs).tail

/-- The fields of a line: the line split on every comma. -/
def fields (line : Str) : List Str := splitOn ',' line

/-- The lines of a text, terminators stripped: a newline ends a line, and a
last line needs no newline. -/
def lines : Str → List Str
  | [] => []
  | c :: cs =>
    if c = '\n' then [] :: lines cs
    else
      match lines cs with
      | [] => [[c]]
      | l :: ls => (c :: l) :: ls

/-- The strings joined with commas. -/
def joinComma : List Str → Str
  | [] => []
  | [f] => f
  | f :: g :: fs => f ++ ',' :: joinComma (g :: fs)

/-- The text made of the given lines, each one newline-terminated. -/
def unlines : List Str → Str
  | [] => []
  | l :: ls => l ++ '\n' :: unlines ls

/-- Field `i` of every row, in row order. -/
def column (i : Nat) (rows : List (List Str)) : List Str :=
  rows.map (fun r => r.getD i [])

/-- The transpose of a matrix whose rows have `n` fields: row `i` of it is
column `i` of the matrix. -/
def transpose (n : Nat) (rows : List (List Str)) : List (List Str) :=
  (List.range n).map (fun i => column i rows)

/-- The text of a matrix: one newline-terminated line per row, the fields of
a row joined with commas. -/
def csvText (rows : List (List Str)) : Str :=
  unlines (rows.map joinComma)

/-- The line does not end with a comma. -/
def noTrailingComma (line : Str) : Prop := line.getLast? ≠ some ','

instance (line : Str) : Decidable (noTrailingComma line) :=
  inferInstanceAs (Decidable (line.getLast? ≠ some ','))

/-- A field of a basic CSV file: no comma and no newline in it. -/
def cleanField (f : Str) : Prop := ',' ∉ f ∧ '\n' ∉ f

instance (f : Str) : Decidable (cleanField f) :=
  inferInstanceAs (Decidable (',' ∉ f ∧ '\n' ∉ f))

/-- An `R`-by-`C` matrix of clean fields. -/
def IsMatrix (R C : Nat) (m : List (List Str)) : Prop :=
  m.length = R ∧ (∀ r ∈ m, r.length = C) ∧ ∀ r ∈ m, ∀ f ∈ r, cleanField f

instance (R C : Nat) (m : List (List Str)) : Decidable (IsMatrix R C m) :=
  inferInstanceAs (Decidable (m.length = R ∧ (∀ r ∈ m, r.length = C) ∧
    ∀ r ∈ m, ∀ f ∈ r, cleanField f))

/-! ## The run, line by line -/

/-- Lines 131-148 once the end-of-file check has passed. -/
def afterInput (e : Env) (output_rows : List Str) : Result :=
  if !e.outputOpens then ⟨6, none⟩
  else ⟨0, some (emit output_rows (OStream.opened e.outputRoom)).content⟩

/-- The body of the `while` loop applied to the given rows in turn. -/
def foldRows (queue_size : Nat) : List Str → Locals → Except Nat Locals
  | [], v => .ok v
  | r :: rs, v =>
    match bodyRowLoop queue_size r v 0 with
    | .error status => .error status
    | .ok v1 => foldRows queue_size rs v1

/-- The result of `main` as a function of the lines of the input (see
`main_eq_process`). -/
def process (e : Env) : List Str → Result
  | [] => ⟨3, none⟩
  | l0 :: ls =>
    match foldRows (firstRowLoop l0 ⟨[], []⟩).output_rows.length ls
        (firstRowLoop l0 ⟨[], []⟩) with
    | .error status => ⟨status, none⟩
    | .ok v => afterInput e v.output_rows

/-- The strings that the row loops cut a row into: like `splitOn ','`, except
that the last character of the row always goes into the last string and a
row of length zero gives no string. -/
def tokens : Str → List Str
  | [] => []
  | c :: cs =>
    if cs.isEmpty then [[c]]
    else if c = ',' then [] :: tokens cs
    else (c :: (tokens cs).headD []) :: (tokens cs).tail

/-- The lines that are not of length zero. -/
def nonEmptyLines (ls : List Str) : List Str := ls.filter (fun l => !l.isEmpty)

/-- The rows of the input as the loops cut them: the tokens of the lines
that are not of length zero. -/
def tokenRows (ls : List Str) : List (List Str) := (nonEmptyLines ls).map tokens

/-- Append to every builder a comma and the string at its place in the row. -/
def appendRow (q : List Str) (row : List Str) : List Str :=
  List.zipWith (fun b f => b ++ ',' :: f) q row

/-- The strings each preceded by a comma, concatenated. -/
def joinTail : List Str → Str
  | [] => []
  | f :: fs => ',' :: f ++ joinTail fs

/-- The text that order preservation asks for, given the rows: `N` lines, `N`
being the number of fields of the first row, line `i` being field `i` of
every row joined with commas. -/
def transposedText (rows : List (List Str)) : Str :=
  csvText (transpose (rows.headD []).length rows)

/-! ## Reading lines -/

theorem lines_cons_of_ne (c : Char) (cs : Str) (hc : c ≠ '\n') :
    lines (c :: cs) = match lines cs with
      | [] => [[c]]
      | l :: ls => (c :: l) :: ls := by
  rw [lines]; simp [hc]

theorem extractLine_some : ∀ (r l after : Str), extractLine r = (l, some after) →
    lines r = l :: lines after ∧ after.length < r.length
  | [], l, after, h => by simp [extractLine] at h
  | c :: cs, l, after, h => by
    by_cases hc : c = '\n'
    · simp [extractLine, hc] at h
      obtain ⟨rfl, rfl⟩ := h
      simp [lines, hc]
    · simp only [extractLine, hc, if_false, Prod.mk.injEq] at h
      obtain ⟨h1, h2⟩ := h
      have ih := extractLine_some cs (extractLine cs).1 after (by rw [← h2])
      subst h1
      simp only [lines, hc, if_false, ih.1, List.length_cons, true_and]
      omega

theorem extractLine_none : ∀ (r l : Str), extractLine r = (l, none) →
    l = r ∧ (r ≠ [] → lines r = [r])
  | [], l, h => by simp [extractLine] at h; simp [h]
  | c :: cs, l, h => by
    by_cases hc : c = '\n'
    · simp [extractLine, hc] at h
    · simp only [extractLine, hc, if_false, Prod.mk.injEq] at h
      obtain ⟨h1, h2⟩ := h
      have ih := extractLine_none cs (extractLine cs).1 (by rw [← h2])
      subst h1
      rw [ih.1]
      refine ⟨rfl, fun _ => ?_⟩
      cases cs with
      | nil => simp [lines, hc]
      | cons d ds => rw [lines_cons_of_ne c _ hc, ih.2 (by simp)]

theorem lines_eq_nil_iff (t : Str) : lines t = [] ↔ t = [] := by
  cases t with
  | nil => simp [lines]
  | cons c cs =>
    by_cases hc : c = '\n'
    · simp [lines, hc]
    · simp only [lines, hc, if_false]
      cases lines cs <;> simp

theorem afterInput_of_eof (e : Env) (s : IStream) (q : List Str) (h : s.eofbit = true) :
    finish e s q = afterInput e q := by
  simp [finish, afterInput, IStream.eof, h]

theorem getline_some {r l after : Str} (row : Str) (h : extractLine r = (l, some after)) :
    getline ⟨r, false, false⟩ row = (⟨after, false, false⟩, l) := by
  simp [getline, IStream.good, h]

theorem getline_none {r l : Str} (row : Str) (h : extractLine r = (l, none)) :
    getline ⟨r, false, false⟩ row = (⟨[], true, l.isEmpty⟩, l) := by
  simp [getline, IStream.good, h]

theorem getline_at_eof (r row : Str) (f : Bool) :
    getline ⟨r, true, f⟩ row = (⟨r, true, true⟩, row) := by
  simp [getline, IStream.good]

/-- The `while` loop, entered after a `getline` on a good stream, handles the
lines of the unread text in turn and then goes on to emission. -/
theorem bodyRows_getline (e : Env) (N : Nat) : ∀ (fuel : Nat) (r row : Str) (v : Locals),
    r.length < fuel →
    bodyRows e N fuel (getline ⟨r, false, false⟩ row).1 (getline ⟨r, false, false⟩ row).2 v
      = some (match foldRows N (lines r) v with
              | .error status => ⟨status, none⟩
              | .ok v1 => afterInput e v1.output_rows)
  | 0, r, row, v, h => by omega
  | fuel + 1, r, row, v, h => by
    rcases hx : extractLine r with ⟨l, _ | after⟩
    · obtain ⟨rfl, hl⟩ := extractLine_none r l hx
      rw [getline_none row hx]
      cases l with
      | nil => simp [IStream.good, bodyRows, IStream.fail, lines, foldRows, afterInput_of_eof]
      | cons c cs =>
        rw [hl (by simp)]
        simp only [IStream.good, bodyRows, IStream.fail, foldRows, IStream.eof]
        cases hb : bodyRowLoop N (c :: cs) v 0 <;> simp [hb, afterInput_of_eof]
    · obtain ⟨hl, hlen⟩ := extractLine_some r l after hx
      rw [hl, getline_some row hx]
      simp only [IStream.good, bodyRows, IStream.fail, foldRows, IStream.eof]
      cases hb : bodyRowLoop N l v 0 with
      | error c => simp [hb]
      | ok v1 =>
        have ih := bodyRows_getline e N fuel after l v1 (by omega)
        simpa [hb] using ih

/-- The run is a function of the lines of the input; in particular `main`
returns. -/
theorem main_eq_process (e : Env) (t : Str) (hargc : 3 ≤ e.argc) (hin : e.input = some t) :
    main e = some (process e (lines t)) := by
  have hlt : ¬ e.argc < 3 := by omega
  simp only [main, hlt, if_false, hin, IStream.ofText]
  rcases hx : extractLine t with ⟨l, _ | after⟩
  · obtain ⟨rfl, hl⟩ := extractLine_none t l hx
    rw [getline_none [] hx]
    cases l with
    | nil => simp [IStream.fail, lines, process]
    | cons c cs =>
      rw [hl (by simp)]
      simp [getline_at_eof, IStream.good, IStream.fail, bodyRows, process, foldRows,
        afterInput_of_eof]
  · obtain ⟨hl, hlen⟩ := extractLine_some t l after hx
    rw [hl, getline_some [] hx]
    have hb := bodyRows_getline e (firstRowLoop l ⟨[], []⟩).output_rows.length (t.length + 1)
      after l (firstRowLoop l ⟨[], []⟩) (by omega)
    simp [IStream.fail, process, hb]

theorem run_eq_process (t : Str) :
    run t = some (process ⟨3, some t, true, none⟩ (lines t)) :=
  main_eq_process _ t (by simp) rfl

/-! ## The row loops -/

theorem tokens_ne_nil : ∀ (l : Str), l ≠ [] → tokens l ≠ []
  | [], h => absurd rfl h
  | c :: cs, _ => by
    unfold tokens
    split
    · simp
    · split <;> simp

theorem tokens_eq_nil_iff (l : Str) : tokens l = [] ↔ l = [] := by
  constructor
  · intro h
    by_contra hl
    exact tokens_ne_nil l hl h
  · rintro rfl
    rfl

theorem headD_cons_tail {α : Type} (xs : List α) (d : α) (h : xs ≠ []) :
    xs.headD d :: xs.tail = xs := by
  cases xs with
  | nil => exact absurd rfl h
  | cons x xs => rfl

theorem head?_getD_cons_tail {α : Type} (xs : List α) (d : α) (h : xs ≠ []) :
    xs.head?.getD d :: xs.tail = xs := by
  cases xs with
  | nil => exact absurd rfl h
  | cons x xs => rfl

theorem rotate_ne_nil (q : List Str) (el : Str) (h : q ≠ []) : rotate q el ≠ [] := by
  cases q with
  | nil => exact absurd rfl h
  | cons b q => simp [rotate]

theorem firstRowLoop_tokens : ∀ (l : Str) (q : List Str) (el : Str), l ≠ [] →
    firstRowLoop l ⟨q, el⟩ = ⟨q ++ ((el ++ (tokens l).headD []) :: (tokens l).tail), []⟩
  | [], _, _, h => absurd rfl h
  | [c], q, el, _ => by simp [firstRowLoop, tokens]
  | c :: d :: ds, q, el, _ => by
    have ih := fun q el => firstRowLoop_tokens (d :: ds) q el (by simp)
    have hne := tokens_ne_nil (d :: ds) (by simp)
    by_cases hc : c = ','
    · rw [firstRowLoop, tokens]
      simp only [List.isEmpty_cons, Bool.false_eq_true, if_false, hc, if_true, ih]
      simp [head?_getD_cons_tail _ _ hne]
    · rw [firstRowLoop, tokens]
      simp only [List.isEmpty_cons, Bool.false_eq_true, if_false, hc, ih]
      simp

/-- The first-row loop leaves the tokens of the row in the queue. -/
theorem firstRowLoop_init (l : Str) : firstRowLoop l ⟨[], []⟩ = ⟨tokens l, []⟩ := by
  cases l with
  | nil => rfl
  | cons c cs =>
    rw [firstRowLoop_tokens _ _ _ (by simp)]
    simp [head?_getD_cons_tail _ _ (tokens_ne_nil (c :: cs) (by simp))]

theorem bodyRowLoop_tokens (N : Nat) : ∀ (l : Str) (q : List Str) (el : Str) (k : Nat),
    l ≠ [] → q ≠ [] →
    bodyRowLoop N l ⟨q, el⟩ k =
      if k + (tokens l).length ≠ N then .error 5
      else .ok ⟨((el ++ (tokens l).headD []) :: (tokens l).tail).foldl rotate q, []⟩
  | [], _, _, _, h, _ => absurd rfl h
  | [c], q, el, k, _, hq => by
    have hq2 : q.isEmpty = false := by cases q <;> simp_all
    simp [bodyRowLoop, tokens, hq2]
  | c :: d :: ds, q, el, k, _, hq => by
    have hq2 : q.isEmpty = false := by cases q <;> simp_all
    have hne := tokens_ne_nil (d :: ds) (by simp)
    have hlen : (tokens (d :: ds)).tail.length + 1 = (tokens (d :: ds)).length := by
      cases h : tokens (d :: ds) with
      | nil => exact absurd h hne
      | cons x xs => simp
    by_cases hc : c = ','
    · rw [bodyRowLoop, tokens]
      simp only [hq2, Bool.false_eq_true, if_false, List.isEmpty_cons, hc, if_true]
      rw [bodyRowLoop_tokens N (d :: ds) _ _ _ (by simp) (rotate_ne_nil q el hq)]
      simp only [List.nil_append, headD_cons_tail _ _ hne, List.length_cons, List.headD_cons,
        List.tail_cons, List.append_nil, List.foldl_cons]
      have : k + 1 + (tokens (d :: ds)).length = k + ((tokens (d :: ds)).length + 1) := by omega
      rw [this]
    · rw [bodyRowLoop, tokens]
      simp only [hq2, Bool.false_eq_true, if_false, List.isEmpty_cons, hc]
      rw [bodyRowLoop_tokens N (d :: ds) _ _ _ (by simp) hq]
      simp only [List.length_cons, List.headD_cons, List.tail_cons, hlen, List.append_assoc,
        List.singleton_append]

theorem foldl_rotate_append : ∀ (ts q1 q2 : List Str), ts.length = q1.length →
    ts.foldl rotate (q1 ++ q2) = q2 ++ appendRow q1 ts
  | [], [], q2, _ => by simp [appendRow]
  | [], _ :: _, _, h => by simp at h
  | _ :: _, [], _, h => by simp at h
  | t :: ts, b :: q1, q2, h => by
    have ih := foldl_rotate_append ts q1 (q2 ++ [b ++ ',' :: t]) (by simpa using h)
    simp only [List.foldl_cons, List.cons_append, rotate]
    rw [List.append_assoc, ih]
    simp [appendRow]

/-- A row whose number of tokens is the queue's length adds its tokens to
the builders, in order; any other number is status 5. -/
theorem bodyRowLoop_row (l : Str) (q : List Str) (hl : l ≠ []) (hq : q ≠ []) :
    bodyRowLoop q.length l ⟨q, []⟩ 0 =
      if (tokens l).length ≠ q.length then .error 5 else .ok ⟨appendRow q (tokens l), []⟩ := by
  rw [bodyRowLoop_tokens _ _ _ _ _ hl hq]
  simp only [Nat.zero_add, List.nil_append, headD_cons_tail _ _ (tokens_ne_nil l hl)]
  by_cases h : (tokens l).length = q.length
  · have := foldl_rotate_append (tokens l) q [] h
    simp only [List.append_nil, List.nil_append] at this
    simp [h, this]
  · simp [h]

theorem bodyRowLoop_empty_queue (N : Nat) (l : Str) (el : Str) (k : Nat) (hl : l ≠ []) :
    bodyRowLoop N l ⟨[], el⟩ k = .error 4 := by
  cases l with
  | nil => exact absurd rfl hl
  | cons c cs => simp [bodyRowLoop]

theorem appendRow_length (q row : List Str) (h : row.length = q.length) :
    (appendRow q row).length = q.length := by
  simp [appendRow, h]

theorem appendRow_ne_nil (q row : List Str) (h : row.length = q.length) (hq : q ≠ []) :
    appendRow q row ≠ [] := by
  intro hn
  have := appendRow_length q row h
  rw [hn] at this
  cases q with
  | nil => exact hq rfl
  | cons b q => simp at this

/-! ## The rows in turn -/

theorem foldRows_ok : ∀ (ls : List Str) (q : List Str) (N : Nat), N = q.length → q ≠ [] →
    (∀ l ∈ ls, l ≠ [] → (tokens l).length = N) →
    foldRows N ls ⟨q, []⟩ = .ok ⟨((nonEmptyLines ls).map tokens).foldl appendRow q, []⟩
  | [], q, N, _, _, _ => by simp [foldRows, nonEmptyLines]
  | l :: ls, q, N, hN, hq, h => by
    subst hN
    by_cases hl : l = []
    · subst hl
      have ih := foldRows_ok ls q q.length rfl hq (fun l hl => h l (List.mem_cons_of_mem _ hl))
      simp [foldRows, bodyRowLoop, nonEmptyLines] at ih ⊢
      exact ih
    · have hlen := h l (List.mem_cons_self _ _) hl
      have ih := foldRows_ok ls (appendRow q (tokens l)) q.length
        (appendRow_length q _ hlen).symm (appendRow_ne_nil q _ hlen hq)
        (fun l hl => h l (List.mem_cons_of_mem _ hl))
      have hl2 : l.isEmpty = false := by cases l <;> simp_all
      rw [foldRows, bodyRowLoop_row l q hl hq]
      simp only [hlen, ne_eq, not_true_eq_false, if_false, ih]
      simp [nonEmptyLines, List.filter_cons, hl2]

theorem foldRows_err : ∀ (ls : List Str) (q : List Str) (N : Nat), N = q.length → q ≠ [] →
    (∃ l ∈ ls, l ≠ [] ∧ (tokens l).length ≠ N) →
    foldRows N ls ⟨q, []⟩ = .error 5
  | [], _, _, _, _, h => by simp at h
  | l :: ls, q, N, hN, hq, h => by
    subst hN
    by_cases hl : l = []
    · subst hl
      have ih := foldRows_err ls q q.length rfl hq (by
        obtain ⟨x, hx, hx1, hx2⟩ := h
        rcases List.mem_cons.1 hx with rfl | hx
        · exact absurd rfl hx1
        · exact ⟨x, hx, hx1, hx2⟩)
      simpa [foldRows, bodyRowLoop] using ih
    · rw [foldRows, bodyRowLoop_row l q hl hq]
      by_cases hlen : (tokens l).length = q.length
      · simp only [hlen, ne_eq, not_true_eq_false, if_false]
        exact foldRows_err ls (appendRow q (tokens l)) q.length
          (appendRow_length q _ hlen).symm (appendRow_ne_nil q _ hlen hq) (by
            obtain ⟨x, hx, hx1, hx2⟩ := h
            rcases List.mem_cons.1 hx with rfl | hx
            · exact absurd hlen hx2
            · exact ⟨x, hx, hx1, hx2⟩)
      · simp [hlen]

theorem foldRows_empty_ok : ∀ (ls : List Str) (N : Nat), (∀ l ∈ ls, l = []) →
    foldRows N ls ⟨[], []⟩ = .ok ⟨[], []⟩
  | [], _, _ => rfl
  | l :: ls, N, h => by
    have hl : l = [] := h l (List.mem_cons_self _ _)
    subst hl
    have ih := foldRows_empty_ok ls N (fun l hl => h l (List.mem_cons_of_mem _ hl))
    simpa [foldRows, bodyRowLoop] using ih

theorem foldRows_empty_err : ∀ (ls : List Str) (N : Nat), (∃ l ∈ ls, l ≠ []) →
    foldRows N ls ⟨[], []⟩ = .error 4
  | [], _, h => by simp at h
  | l :: ls, N, h => by
    by_cases hl : l = []
    · subst hl
      have ih := foldRows_empty_err ls N (by
        obtain ⟨x, hx, hx1⟩ := h
        rcases List.mem_cons.1 hx with rfl | hx
        · exact absurd rfl hx1
        · exact ⟨x, hx, hx1⟩)
      simpa [foldRows, bodyRowLoop] using ih
    · simp [foldRows, bodyRowLoop_empty_queue N l [] 0 hl]

/-! ## What the builders hold -/

theorem joinComma_cons : ∀ (f : Str) (fs : List Str), joinComma (f :: fs) = f ++ joinTail fs
  | f, [] => by simp [joinComma, joinTail]
  | f, g :: gs => by
    rw [joinComma, joinComma_cons g gs]
    simp [joinTail]

theorem range_map_getD {α : Type} (q : List α) (d : α) :
    (List.range q.length).map (fun i => q.getD i d) = q := by
  apply List.ext_getElem
  · simp
  · intro i h1 h2
    simp [List.getElem?_eq_getElem h2]

theorem foldl_appendRow : ∀ (rows : List (List Str)) (q : List Str),
    (∀ r ∈ rows, r.length = q.length) →
    rows.foldl appendRow q
      = (List.range q.length).map (fun i => q.getD i [] ++ joinTail (column i rows))
  | [], q, _ => by
    have := range_map_getD q []
    simpa [column, joinTail] using this.symm
  | r :: rs, q, h => by
    have hr : r.length = q.length := h r (List.mem_cons_self _ _)
    have hlen := appendRow_length q r hr
    have ih := foldl_appendRow rs (appendRow q r) (fun r' hr' => by
      rw [hlen]; exact h r' (List.mem_cons_of_mem _ hr'))
    rw [List.foldl_cons, ih, hlen]
    apply List.map_congr_left
    intro i hi
    have hi1 : i < q.length := List.mem_range.1 hi
    have hi2 : i < r.length := by omega
    have hi3 : i < (appendRow q r).length := by omega
    rw [List.getD_eq_getElem _ _ hi3, List.getD_eq_getElem _ _ hi1]
    simp [appendRow, column, joinTail, List.getElem?_eq_getElem hi2]

/-- The builders after the first row `r0` and the later rows `rows`, all of
`r0.length` strings: builder `i` is column `i` joined with commas. -/
theorem foldl_appendRow_transpose (r0 : List Str) (rows : List (List Str))
    (h : ∀ r ∈ rows, r.length = r0.length) :
    rows.foldl appendRow r0 = (transpose r0.length (r0 :: rows)).map joinComma := by
  rw [foldl_appendRow rows r0 h]
  simp [transpose, column, joinComma_cons]

theorem emit_content : ∀ (q : List Str) (c : Str),
    (emit q ⟨c, true, none⟩).content = c ++ unlines q
  | [], c => by simp [emit, unlines]
  | l :: q, c => by
    simp [emit, OStream.putLine, emit_content q, unlines]

theorem afterInput_run (t : Option Str) (argc : Nat) (q : List Str) :
    afterInput ⟨argc, t, true, none⟩ q = ⟨0, some (unlines q)⟩ := by
  simp [afterInput, OStream.opened, emit_content]

theorem process_ok (e : Env) (l0 : Str) (ls : List Str) (h0 : l0 ≠ [])
    (h : ∀ l ∈ ls, l ≠ [] → (tokens l).length = (tokens l0).length) :
    process e (l0 :: ls)
      = afterInput e ((transpose (tokens l0).length (tokens l0 :: tokenRows ls)).map joinComma) := by
  have hq : tokens l0 ≠ [] := tokens_ne_nil l0 h0
  simp only [process, firstRowLoop_init]
  rw [foldRows_ok ls (tokens l0) _ rfl hq h]
  simp only
  rw [foldl_appendRow_transpose]
  · rfl
  · intro r hr
    simp only [nonEmptyLines, List.mem_map, List.mem_filter] at hr
    obtain ⟨l, ⟨hl1, hl2⟩, rfl⟩ := hr
    exact h l hl1 (by intro hn; simp [hn] at hl2)

theorem process_mismatch (e : Env) (l0 : Str) (ls : List Str) (h0 : l0 ≠ [])
    (h : ∃ l ∈ ls, l ≠ [] ∧ (tokens l).length ≠ (tokens l0).length) :
    process e (l0 :: ls) = ⟨5, none⟩ := by
  have hq : tokens l0 ≠ [] := tokens_ne_nil l0 h0
  simp only [process, firstRowLoop_init]
  rw [foldRows_err ls (tokens l0) _ rfl hq h]

theorem process_blank_first_ok (e : Env) (ls : List Str) (h : ∀ l ∈ ls, l = []) :
    process e ([] :: ls) = afterInput e [] := by
  simp only [process, firstRowLoop]
  rw [foldRows_empty_ok ls _ h]

theorem process_blank_first_err (e : Env) (ls : List Str) (h : ∃ l ∈ ls, l ≠ []) :
    process e ([] :: ls) = ⟨4, none⟩ := by
  simp only [process, firstRowLoop]
  rw [foldRows_empty_err ls _ h]

/-! ## Lines and fields of a written matrix -/

theorem splitOn_ne_nil (d : Char) : ∀ (s : Str), splitOn d s ≠ []
  | [] => by simp [splitOn]
  | c :: cs => by
    unfold splitOn
    split <;> simp

theorem tokens_eq_fields : ∀ (l : Str), l ≠ [] → noTrailingComma l → tokens l = fields l
  | [], h, _ => absurd rfl h
  | [c], _, h => by
    have hc : c ≠ ',' := by simpa [noTrailingComma] using h
    simp [tokens, fields, splitOn, hc]
  | c :: d :: ds, _, h => by
    have ih := tokens_eq_fields (d :: ds) (by simp) (by simpa [noTrailingComma] using h)
    rw [tokens, fields, splitOn]
    simp only [List.isEmpty_cons, Bool.false_eq_true, if_false, ih, fields]

theorem splitOn_append (d : Char) (s : Str) : ∀ (f : Str), d ∉ f →
    splitOn d (f ++ s) = (f ++ (splitOn d s).headD []) :: (splitOn d s).tail
  | [], _ => by simp [head?_getD_cons_tail _ _ (splitOn_ne_nil d s)]
  | c :: cs, h => by
    have hc : c ≠ d := fun hcd => h (by simp [hcd])
    have ih := splitOn_append d s cs (fun hm => h (List.mem_cons_of_mem _ hm))
    rw [List.cons_append, splitOn, ih]
    simp [hc]

theorem fields_joinComma : ∀ (row : List Str), row ≠ [] → (∀ f ∈ row, ',' ∉ f) →
    fields (joinComma row) = row
  | [], h, _ => absurd rfl h
  | [f], _, h => by
    have := splitOn_append ',' [] f (h f (by simp))
    simpa [fields, joinComma, splitOn] using this
  | f :: g :: fs, _, h => by
    have ih := fields_joinComma (g :: fs) (by simp) (fun x hx => h x (List.mem_cons_of_mem _ hx))
    have := splitOn_append ',' (',' :: joinComma (g :: fs)) f (h f (by simp))
    rw [fields] at ih
    rw [fields, joinComma, this, splitOn]
    simp [ih]

theorem lines_append_newline (s : Str) : ∀ (l : Str), '\n' ∉ l →
    lines (l ++ '\n' :: s) = l :: lines s
  | [], _ => by simp [lines]
  | c :: cs, h => by
    have hc : c ≠ '\n' := fun hcd => h (by simp [hcd])
    have ih := lines_append_newline s cs (fun hm => h (List.mem_cons_of_mem _ hm))
    rw [List.cons_append, lines_cons_of_ne c _ hc, ih]

theorem lines_unlines : ∀ (ls : List Str), (∀ l ∈ ls, '\n' ∉ l) → lines (unlines ls) = ls
  | [], _ => rfl
  | l :: ls, h => by
    rw [unlines, lines_append_newline _ l (h l (by simp)),
      lines_unlines ls (fun x hx => h x (List.mem_cons_of_mem _ hx))]

theorem mem_joinComma (c : Char) : ∀ (row : List Str), c ∈ joinComma row →
    c = ',' ∨ ∃ f ∈ row, c ∈ f
  | [], h => by simp [joinComma] at h
  | [f], h => by
    right
    exact ⟨f, by simp, by simpa [joinComma] using h⟩
  | f :: g :: fs, h => by
    rw [joinComma] at h
    rcases List.mem_append.1 h with h | h
    · exact Or.inr ⟨f, by simp, h⟩
    · rcases List.mem_cons.1 h with h | h
      · exact Or.inl h
      · rcases mem_joinComma c (g :: fs) h with h | ⟨x, hx, hc⟩
        · exact Or.inl h
        · exact Or.inr ⟨x, List.mem_cons_of_mem _ hx, hc⟩

theorem newline_not_mem_joinComma (row : List Str) (h : ∀ f ∈ row, '\n' ∉ f) :
    '\n' ∉ joinComma row := by
  intro hm
  rcases mem_joinComma _ row hm with hc | ⟨f, hf, hc⟩
  · exact absurd hc (by decide)
  · exact h f hf hc

theorem getLast?_joinComma : ∀ (row : List Str) (f : Str), row.getLast? = some f → f ≠ [] →
    (joinComma row).getLast? = f.getLast?
  | [], _, h, _ => by simp at h
  | [g], f, h, _ => by
    have : g = f := by simpa using h
    simp [joinComma, this]
  | g :: g2 :: gs, f, h, hf => by
    have ih := getLast?_joinComma (g2 :: gs) f (by simpa using h) hf
    have hne : joinComma (g2 :: gs) ≠ [] := by
      intro hn
      rw [hn] at ih
      cases f with
      | nil => exact hf rfl
      | cons c cs =>
        have : (c :: cs).getLast? ≠ none := by simp
        exact this ih.symm
    rw [joinComma, List.getLast?_append_of_ne_nil _ (by simp)]
    cases hj : joinComma (g2 :: gs) with
    | nil => exact absurd hj hne
    | cons x xs => rw [← hj, ← ih]; simp [hj]

/-- The line of a row whose last field is not empty and has no comma is not
of length zero and does not end with a comma. -/
theorem joinComma_clean_line (row : List Str) (hl : row ≠ []) (hlast : row.getLast? ≠ some [])
    (hc : ∀ f ∈ row, ',' ∉ f) : joinComma row ≠ [] ∧ noTrailingComma (joinComma row) := by
  obtain ⟨f, hf⟩ : ∃ f, row.getLast? = some f := by
    cases h : row.getLast? with
    | none => exact absurd (List.getLast?_eq_none_iff.1 h) hl
    | some f => exact ⟨f, rfl⟩
  have hfne : f ≠ [] := by
    rintro rfl
    exact hlast hf
  have hmem : f ∈ row := List.mem_of_getLast?_eq_some hf
  have hj := getLast?_joinComma row f hf hfne
  constructor
  · intro hn
    rw [hn] at hj
    cases f with
    | nil => exact hfne rfl
    | cons c cs =>
      have : (c :: cs).getLast? ≠ none := by simp
      exact this hj.symm
  · unfold noTrailingComma
    rw [hj]
    intro hcomma
    exact hc f hmem (List.mem_of_getLast?_eq_some hcomma)

theorem tokenRows_map_joinComma : ∀ (rs : List (List Str)),
    (∀ r ∈ rs, joinComma r ≠ [] ∧ tokens (joinComma r) = r) →
    tokenRows (rs.map joinComma) = rs
  | [], _ => rfl
  | r :: rs, h => by
    obtain ⟨h1, h2⟩ := h r (by simp)
    have ih := tokenRows_map_joinComma rs (fun x hx => h x (List.mem_cons_of_mem _ hx))
    have h3 : (joinComma r).isEmpty = false := by
      cases hj : joinComma r with
      | nil => exact absurd hj h1
      | cons c cs => rfl
    simp only [tokenRows, nonEmptyLines] at ih ⊢
    simp [List.filter_cons, h3, h2, ih]

/-- The line of a row of a matrix with a non-empty last field is cut by the
loops into the fields of the row. -/
theorem tokens_joinComma (row : List Str) (hl : row ≠ []) (hlast : row.getLast? ≠ some [])
    (hc : ∀ f ∈ row, ',' ∉ f) : joinComma row ≠ [] ∧ tokens (joinComma row) = row := by
  obtain ⟨h1, h2⟩ := joinComma_clean_line row hl hlast hc
  exact ⟨h1, by rw [tokens_eq_fields _ h1 h2, fields_joinComma row hl hc]⟩

/-- The run on the text of a matrix in which the last field of every row is
not empty: status 0, and the output is the text of the transpose. -/
theorem run_csvText (C : Nat) (m : List (List Str)) (hm : m ≠ []) (hC : 0 < C)
    (hcols : ∀ r ∈ m, r.length = C) (hclean : ∀ r ∈ m, ∀ f ∈ r, cleanField f)
    (hlast : ∀ r ∈ m, r.getLast? ≠ some []) :
    run (csvText m) = some ⟨0, some (csvText (transpose C m))⟩ := by
  have hrow : ∀ r ∈ m, joinComma r ≠ [] ∧ tokens (joinComma r) = r := by
    intro r hr
    have hne : r ≠ [] := by
      intro hn
      have := hcols r hr
      rw [hn] at this
      simp at this
      omega
    exact tokens_joinComma r hne (hlast r hr) (fun f hf => (hclean r hr f hf).1)
  have hlines : lines (csvText m) = m.map joinComma := by
    apply lines_unlines
    intro l hl
    obtain ⟨r, hr, rfl⟩ := List.mem_map.1 hl
    exact newline_not_mem_joinComma r (fun f hf => (hclean r hr f hf).2)
  rw [run_eq_process, hlines]
  cases m with
  | nil => exact absurd rfl hm
  | cons r0 rs =>
    have h0 := hrow r0 (by simp)
    have hrs : ∀ r ∈ rs, joinComma r ≠ [] ∧ tokens (joinComma r) = r :=
      fun r hr => hrow r (List.mem_cons_of_mem _ hr)
    rw [List.map_cons, process_ok _ _ _ h0.1, afterInput_run, h0.2,
      tokenRows_map_joinComma rs hrs, hcols r0 (by simp)]
    · rfl
    · intro l hl _
      obtain ⟨r, hr, rfl⟩ := List.mem_map.1 hl
      rw [(hrs r hr).2, h0.2, hcols r (List.mem_cons_of_mem _ hr), hcols r0 (by simp)]

/-! ## Order preservation (C1) -/

theorem nonEmptyLines_cons_of_ne (l : Str) (ls : List Str) (h : l ≠ []) :
    nonEmptyLines (l :: ls) = l :: nonEmptyLines ls := by
  have : l.isEmpty = false := by cases l <;> simp_all
  simp [nonEmptyLines, List.filter_cons, this]

theorem nonEmptyLines_cons_nil (ls : List Str) :
    nonEmptyLines ([] :: ls) = nonEmptyLines ls := by
  simp [nonEmptyLines, List.filter_cons]

theorem nonEmptyLines_eq_nil : ∀ (ls : List Str), (∀ l ∈ ls, l = []) → nonEmptyLines ls = []
  | [], _ => rfl
  | l :: ls, h => by
    have hl : l = [] := h l (by simp)
    subst hl
    rw [nonEmptyLines_cons_nil, nonEmptyLines_eq_nil ls (fun x hx => h x (List.mem_cons_of_mem _ hx))]

theorem mem_nonEmptyLines {l : Str} {ls : List Str} (h : l ∈ nonEmptyLines ls) :
    l ∈ ls ∧ l ≠ [] := by
  simp only [nonEmptyLines, List.mem_filter] at h
  exact ⟨h.1, by intro hn; simp [hn] at h⟩

theorem tokenRows_eq_fields (ls : List Str) (h : ∀ l ∈ ls, noTrailingComma l) :
    tokenRows ls = (nonEmptyLines ls).map fields := by
  unfold tokenRows
  apply List.map_congr_left
  intro l hl
  obtain ⟨h1, h2⟩ := mem_nonEmptyLines hl
  exact tokens_eq_fields l h2 (h l h1)

/-- C1, as stated, fails: on `a`, a zero-length line, `b` the run succeeds
with the single output line `a,b`, where the claim asks for `a,,b`; and on the
one line `a,` it succeeds with the single output line `a,`, where the claim
asks for the two lines `a` and the empty line. -/
theorem order_preservation_counterexample :
    (run ("a\n\nb\n".toList) = some ⟨0, some ("a,b\n".toList)⟩ ∧
      transposedText ((lines ("a\n\nb\n".toList)).map fields) = "a,,b\n".toList) ∧
    (run ("a,\n".toList) = some ⟨0, some ("a,\n".toList)⟩ ∧
      transposedText ((lines ("a,\n".toList)).map fields) = "a\n\n".toList) := by
  decide

/-- C1, amended: whenever the run succeeds on an input none of whose lines
ends with a comma, let the rows be the input's lines that are not of length
zero, split on every comma, and `N` the number of fields of the first row
(0 when there is no row); then the output consists of exactly `N` lines, and
line `i` is field `i` of every row, in input order, joined with commas. -/
theorem order_preservation (t out : Str) (hrun : run t = some ⟨0, some out⟩)
    (hclean : ∀ l ∈ lines t, noTrailingComma l) :
    out = transposedText ((nonEmptyLines (lines t)).map fields) := by
  rw [run_eq_process] at hrun
  cases hl : lines t with
  | nil => simp [hl, process] at hrun
  | cons l0 ls =>
    rw [hl] at hrun hclean
    have hcl : ∀ l ∈ ls, noTrailingComma l := fun l h => hclean l (List.mem_cons_of_mem _ h)
    by_cases h0 : l0 = []
    · subst h0
      by_cases hall : ∀ l ∈ ls, l = []
      · rw [process_blank_first_ok _ _ hall, afterInput_run] at hrun
        rw [nonEmptyLines_cons_nil, nonEmptyLines_eq_nil ls hall]
        simp only [Option.some.injEq, Result.mk.injEq, true_and] at hrun
        rw [← hrun]
        rfl
      · rw [process_blank_first_err _ _ (by push_neg at hall; exact hall)] at hrun
        simp at hrun
    · by_cases hm : ∀ l ∈ ls, l ≠ [] → (tokens l).length = (tokens l0).length
      · rw [process_ok _ _ _ h0 hm, afterInput_run] at hrun
        simp only [Option.some.injEq, Result.mk.injEq, true_and] at hrun
        rw [← hrun, nonEmptyLines_cons_of_ne _ _ h0, tokenRows_eq_fields ls hcl,
          tokens_eq_fields l0 h0 (hclean l0 (by simp))]
        rfl
      · rw [process_mismatch _ _ _ h0 (by push_neg at hm; exact hm)] at hrun
        simp at hrun

/-- An input with a zero-length line in it, where the amended C1 applies. -/
theorem order_preservation_witness :
    "x,1\ny,2\n".toList
      = transposedText ((nonEmptyLines (lines ("x,y\n\n1,2\n".toList))).map fields) :=
  order_preservation ("x,y\n\n1,2\n".toList) ("x,1\ny,2\n".toList) (by decide) (by decide)

/-! ## Transpose of a basic CSV file (C2) -/

/-- C2: for `R ≥ 1`, `C ≥ 1` and an `R`-by-`C` matrix of fields with no
comma and no newline in which the last field of every row is not empty, the
run on the text of the matrix returns status 0 and writes exactly the `C`
newline-terminated lines of the transpose: line `i` is field `i` of row 0,
..., of row `R-1`, joined with commas. -/
theorem transpose_basic_csv (R C : Nat) (m : List (List Str)) (hR : 1 ≤ R) (hC : 1 ≤ C)
    (hm : IsMatrix R C m) (hlast : ∀ r ∈ m, r.getLast? ≠ some []) :
    run (csvText m) = some ⟨0, some (csvText (transpose C m))⟩ ∧
      (transpose C m).length = C := by
  refine ⟨run_csvText C m ?_ hC hm.2.1 hm.2.2 hlast, by simp [transpose]⟩
  intro hn
  have := hm.1
  rw [hn] at this
  simp at this
  omega

/-- The scenario of the specification: `a,b,c / 1,2,3 / 4,5,6` gives
`a,1,4 / b,2,5 / c,3,6`. -/
theorem transpose_basic_csv_witness :
    run ("a,b,c\n1,2,3\n4,5,6\n".toList) = some ⟨0, some ("a,1,4\nb,2,5\nc,3,6\n".toList)⟩ :=
  (transpose_basic_csv 3 3
    [["a".toList, "b".toList, "c".toList], ["1".toList, "2".toList, "3".toList],
      ["4".toList, "5".toList, "6".toList]]
    (by decide) (by decide) (by decide) (by decide)).1

/-! ## Round trip (C3) -/

theorem column_length (i : Nat) (m : List (List Str)) : (column i m).length = m.length := by
  simp [column]

theorem getD_column (i j : Nat) (m : List (List Str)) (hj : j < m.length) :
    (column i m).getD j [] = (m.getD j []).getD i [] := by
  simp [column, List.getElem?_eq_getElem hj]

/-- Transposing twice gives the matrix back. -/
theorem transpose_transpose (R C : Nat) (m : List (List Str)) (hR : m.length = R)
    (hC : ∀ r ∈ m, r.length = C) : transpose R (transpose C m) = m := by
  subst hR
  have h1 : ∀ j ∈ List.range m.length, column j (transpose C m) = m.getD j [] := by
    intro j hj
    have hj1 : j < m.length := List.mem_range.1 hj
    have hlen : (m.getD j []).length = C := by
      rw [List.getD_eq_getElem _ _ hj1]
      exact hC _ (List.getElem_mem _)
    have h2 : column j (transpose C m)
        = (List.range C).map (fun i => (m.getD j []).getD i []) := by
      simp only [column, transpose, List.map_map]
      apply List.map_congr_left
      intro i _
      have := getD_column i j m hj1
      simp only [column] at this
      simpa using this
    rw [h2, ← hlen, range_map_getD]
  have h3 : transpose m.length (transpose C m)
      = (List.range m.length).map (fun j => m.getD j []) := by
    unfold transpose
    exact List.map_congr_left h1
  rw [h3, range_map_getD]

theorem getD_mem_of_lt {α : Type} (r : List α) (i : Nat) (d : α) (h : i < r.length) :
    r.getD i d ∈ r := by
  rw [List.getD_eq_getElem _ _ h]
  exact List.getElem_mem _

/-- The transpose of an `R`-by-`C` matrix is a `C`-by-`R` matrix. -/
theorem isMatrix_transpose (R C : Nat) (m : List (List Str)) (hm : IsMatrix R C m) :
    IsMatrix C R (transpose C m) := by
  obtain ⟨h1, h2, h3⟩ := hm
  refine ⟨by simp [transpose], ?_, ?_⟩
  · intro r hr
    simp only [transpose, List.mem_map, List.mem_range] at hr
    obtain ⟨i, _, rfl⟩ := hr
    rw [column_length, h1]
  · intro r hr f hf
    simp only [transpose, List.mem_map, List.mem_range] at hr
    obtain ⟨i, hi, rfl⟩ := hr
    simp only [column, List.mem_map] at hf
    obtain ⟨x, hx, rfl⟩ := hf
    exact h3 x hx _ (getD_mem_of_lt x i [] (by rw [h2 x hx]; exact hi))

/-- The last fields of the rows of the transpose are the fields of the last
row. -/
theorem transpose_last_fields (C : Nat) (m : List (List Str)) (hC : ∀ r ∈ m, r.length = C)
    (hrow : ∀ r, m.getLast? = some r → ∀ f ∈ r, f ≠ []) :
    ∀ r ∈ transpose C m, r.getLast? ≠ some [] := by
  intro r hr
  simp only [transpose, List.mem_map, List.mem_range] at hr
  obtain ⟨i, hi, rfl⟩ := hr
  simp only [column, List.getLast?_map]
  cases hl : m.getLast? with
  | none => simp
  | some x =>
    have hx : x ∈ m := List.mem_of_getLast?_eq_some hl
    have hmem : x.getD i [] ∈ x := getD_mem_of_lt x i [] (by rw [hC x hx]; exact hi)
    intro hn
    simp only [Option.map_some', Option.some.injEq] at hn
    exact hrow x hl _ hmem hn

/-- C3, as stated, fails.  A zero-length line is no row: the 2-by-1 matrix
`a /` empty field is written as the line `a` and a zero-length line, and the
run writes the single line `a`, a 1-by-1 matrix, where the claim asks for the
line `a,`; the 1-by-2 matrix of an empty field and `b` is transposed to a
zero-length line and the line `b`, and the run on that output finds its queue
empty and ends with status 4.  With more columns an empty last field ends its
line with a comma: the 2-by-2 matrix `a, / b,c` is rejected with status 5, and
the 2-by-2 matrix `a,b / ,c` is transposed, the run on the result being
rejected with status 5. -/
theorem round_trip_counterexample :
    (IsMatrix 2 1 [["a".toList], [[]]] ∧
      run (csvText [["a".toList], [[]]]) = some ⟨0, some ("a\n".toList)⟩ ∧
      csvText (transpose 1 [["a".toList], [[]]]) = "a,\n".toList) ∧
    (IsMatrix 1 2 [[[], "b".toList]] ∧
      run (csvText [[[], "b".toList]]) = some ⟨0, some ("\nb\n".toList)⟩ ∧
      run ("\nb\n".toList) = some ⟨4, none⟩) ∧
    (IsMatrix 2 2 [["a".toList, []], ["b".toList, "c".toList]] ∧
      run (csvText [["a".toList, []], ["b".toList, "c".toList]]) = some ⟨5, none⟩) ∧
    (IsMatrix 2 2 [["a".toList, "b".toList], [[], "c".toList]] ∧
      run (csvText [["a".toList, "b".toList], [[], "c".toList]])
        = some ⟨0, some ("a,\nb,c\n".toList)⟩ ∧
      run ("a,\nb,c\n".toList) = some ⟨5, none⟩) := by
  decide

/-- C3, amended: for `R ≥ 1`, `C ≥ 1` and an `R`-by-`C` matrix of fields
with no comma and no newline in which the fields of the last column and of
the last row are not empty (the others may be), the run on the text of the
matrix succeeds, its output is the text of a `C`-by-`R` matrix, and the run
on that output succeeds and produces the original text. -/
theorem round_trip (R C : Nat) (m : List (List Str)) (hR : 1 ≤ R) (hC : 1 ≤ C)
    (hm : IsMatrix R C m) (hcol : ∀ r ∈ m, r.getLast? ≠ some [])
    (hrow : ∀ r, m.getLast? = some r → ∀ f ∈ r, f ≠ []) :
    run (csvText m) = some ⟨0, some (csvText (transpose C m))⟩ ∧
      IsMatrix C R (transpose C m) ∧
      run (csvText (transpose C m)) = some ⟨0, some (csvText m)⟩ := by
  have hne : m ≠ [] := by
    intro hn
    have := hm.1
    rw [hn] at this
    simp at this
    omega
  have hT := isMatrix_transpose R C m hm
  have hTne : transpose C m ≠ [] := by
    intro hn
    have := hT.1
    rw [hn] at this
    simp at this
    omega
  refine ⟨run_csvText C m hne hC hm.2.1 hm.2.2 hcol, hT, ?_⟩
  have h2 := run_csvText R (transpose C m) hTne hR hT.2.1 hT.2.2
    (transpose_last_fields C m hm.2.1 hrow)
  rw [transpose_transpose R C m hm.1 hm.2.1] at h2
  exact h2

/-- A 2-by-3 matrix with empty fields away from its last column and last
row, where the amended C3 applies. -/
theorem round_trip_witness :
    run ("a,,c\n1,2,3\n".toList) = some ⟨0, some ("a,1\n,2\nc,3\n".toList)⟩ ∧
      IsMatrix 3 2 [["a".toList, "1".toList], [[], "2".toList], ["c".toList, "3".toList]] ∧
      run ("a,1\n,2\nc,3\n".toList) = some ⟨0, some ("a,,c\n1,2,3\n".toList)⟩ :=
  round_trip 2 3 [["a".toList, [], "c".toList], ["1".toList, "2".toList, "3".toList]]
    (by decide) (by decide) (by decide) (by decide) (by decide)

/-! ## Column-count invariant (C4) -/

/-- C4, as stated, fails.  In `x,y`, zero-length line, the second line splits
into one field and the first into two, and the run succeeds; in `a,b / 1,2,`
the second line splits into three fields and the first into two, and the run
succeeds. -/
theorem column_count_counterexample :
    (lines ("x,y\n\n".toList) = ["x,y".toList, []] ∧
      (fields []).length ≠ (fields ("x,y".toList)).length ∧
      run ("x,y\n\n".toList) = some ⟨0, some ("x\ny\n".toList)⟩) ∧
    (lines ("a,b\n1,2,\n".toList) = ["a,b".toList, "1,2,".toList] ∧
      (fields ("1,2,".toList)).length ≠ (fields ("a,b".toList)).length ∧
      run ("a,b\n1,2,\n".toList) = some ⟨0, some ("a,1\nb,2,\n".toList)⟩) := by
  decide

/-- C4, amended: for every input text whose first line is not of length zero
and does not end with a comma, if some line after the first that is not of
length zero and does not end with a comma has a number of comma-separated
fields different from the first line's, then the run fails with status 5
(and so does not succeed). -/
theorem column_count (t l0 : Str) (ls : List Str) (hl : lines t = l0 :: ls) (h0 : l0 ≠ [])
    (hc0 : noTrailingComma l0)
    (hbad : ∃ l ∈ ls, l ≠ [] ∧ noTrailingComma l ∧ (fields l).length ≠ (fields l0).length) :
    run t = some ⟨5, none⟩ := by
  rw [run_eq_process, hl, process_mismatch _ _ _ h0]
  obtain ⟨l, hmem, hne, hc, hlen⟩ := hbad
  refine ⟨l, hmem, hne, ?_⟩
  rw [tokens_eq_fields l hne hc, tokens_eq_fields l0 h0 hc0]
  exact hlen

/-- The scenario of the specification: `x,y / 1,2 / 3`, a short last row. -/
theorem column_count_witness : run ("x,y\n1,2\n3".toList) = some ⟨5, none⟩ :=
  column_count ("x,y\n1,2\n3".toList) ("x,y".toList) ["1,2".toList, "3".toList]
    (by decide) (by decide) (by decide) (by decide)

/-! ## No partial output (C5) -/

theorem afterInput_status (e : Env) (q : List Str) :
    (afterInput e q).status = 0 ∨ ((afterInput e q).status = 6 ∧ (afterInput e q).output = none) := by
  unfold afterInput
  split
  · exact Or.inr ⟨rfl, rfl⟩
  · exact Or.inl rfl

/-- A run that read its input ends with status 0, or else leaves no output. -/
theorem process_output (e : Env) (ls : List Str) :
    (process e ls).status = 0 ∨ (process e ls).output = none := by
  cases ls with
  | nil => exact Or.inr rfl
  | cons l0 ls =>
    simp only [process]
    cases foldRows (firstRowLoop l0 ⟨[], []⟩).output_rows.length ls
        (firstRowLoop l0 ⟨[], []⟩) with
    | error c => exact Or.inr rfl
    | ok v =>
      rcases afterInput_status e v.output_rows with h | h
      · exact Or.inl h
      · exact Or.inr h.2

/-- The function `main` returns, with status 0 or else without output. -/
theorem main_output (e : Env) :
    ∃ r, main e = some r ∧ (r.status = 0 ∨ r.output = none) := by
  by_cases hargc : e.argc < 3
  · exact ⟨⟨1, none⟩, by simp [main, hargc], Or.inr rfl⟩
  · cases hin : e.input with
    | none => exact ⟨⟨2, none⟩, by simp [main, hargc, hin], Or.inr rfl⟩
    | some t => exact ⟨_, main_eq_process e t (by omega) hin, process_output e _⟩

/-- C5: whatever the program is run on, it returns, and if it ends with a
read error, the empty-accumulator error or the malformed-input error (status
3, 4 or 5), the output was never opened, so nothing has been written. -/
theorem no_partial_output (e : Env) :
    ∃ r, main e = some r ∧ (r.status = 3 ∨ r.status = 4 ∨ r.status = 5 → r.output = none) := by
  obtain ⟨r, hr, h⟩ := main_output e
  refine ⟨r, hr, fun hs => ?_⟩
  rcases h with h | h
  · omega
  · exact h

/-! ## Empty field handling (C6) -/

/-- C6 at `a,b / 1,`: every line splits on every comma into two fields, the
last field of the second line being empty, and the run ends with status 5.
At `a, / 1,`, where both lines end with a comma, the run succeeds and writes
the single line `a,,1,`. -/
theorem empty_last_field_lost :
    ((lines ("a,b\n1,\n".toList)).map fields
        = [["a".toList, "b".toList], ["1".toList, []]] ∧
      run ("a,b\n1,\n".toList) = some ⟨5, none⟩) ∧
    ((lines ("a,\n1,\n".toList)).map fields = [["a".toList, []], ["1".toList, []]] ∧
      run ("a,\n1,\n".toList) = some ⟨0, some ("a,,1,\n".toList)⟩) := by
  decide

/-! ## Single-field rows (C7) -/

theorem tokens_of_no_comma (l : Str) (hl : l ≠ []) (hc : ',' ∉ l) : tokens l = [l] := by
  have h1 : noTrailingComma l := fun h => hc (List.mem_of_getLast?_eq_some h)
  have h2 := splitOn_append ',' [] l hc
  rw [tokens_eq_fields l hl h1, fields]
  simpa [splitOn] using h2

theorem tokenRows_of_no_comma (ls : List Str) (hc : ∀ l ∈ ls, ',' ∉ l) :
    tokenRows ls = (nonEmptyLines ls).map (fun l => [l]) := by
  unfold tokenRows
  apply List.map_congr_left
  intro l hl
  obtain ⟨h1, h2⟩ := mem_nonEmptyLines hl
  exact tokens_of_no_comma l h2 (hc l h1)

/-- C7, as stated, fails: on `p`, a zero-length line, `q` the output is the
line `p,q`, where the claim asks for `p,,q`; and on a zero-length line
followed by `q` the run ends with status 4. -/
theorem single_column_counterexample :
    (run ("p\n\nq\n".toList) = some ⟨0, some ("p,q\n".toList)⟩ ∧
      joinComma (lines ("p\n\nq\n".toList)) ++ ['\n'] = "p,,q\n".toList) ∧
    run ("\nq\n".toList) = some ⟨4, none⟩ := by
  decide

/-- C7, amended: for every input of `R ≥ 1` lines none of which contains a
comma and the first of which is not of length zero, the run succeeds and the
output is exactly one line: the values of the lines that are not of length
zero, joined with commas in input order. -/
theorem single_column (t l0 : Str) (ls : List Str) (hl : lines t = l0 :: ls) (h0 : l0 ≠ [])
    (hc : ∀ l ∈ lines t, ',' ∉ l) :
    run t = some ⟨0, some (joinComma (nonEmptyLines (lines t)) ++ ['\n'])⟩ := by
  rw [hl] at hc
  have hcs : ∀ l ∈ ls, ',' ∉ l := fun l h => hc l (List.mem_cons_of_mem _ h)
  have ht0 := tokens_of_no_comma l0 h0 (hc l0 (by simp))
  rw [run_eq_process, hl, process_ok _ _ _ h0, afterInput_run, ht0, tokenRows_of_no_comma ls hcs,
    nonEmptyLines_cons_of_ne _ _ h0]
  · simp [transpose, column, unlines, List.map_map, Function.comp_def]
  · intro l hmem hne
    rw [tokens_of_no_comma l hne (hcs l hmem), ht0]
    rfl

/-- Three values, one per line, the last line without a newline. -/
theorem single_column_witness :
    run ("p\nq\nr".toList) = some ⟨0, some ("p,q,r\n".toList)⟩ :=
  single_column ("p\nq\nr".toList) ("p".toList) ["q".toList, "r".toList]
    (by decide) (by decide) (by decide)

/-! ## Field splitting (C8) -/

/-- C8, as stated, fails: from a zero-length first line the first-row loop
pushes nothing (`N = 0`), where splitting gives one empty field; and from the
line `a,` it pushes the single string `a,`, where splitting gives `a` and an
empty field. -/
theorem field_splitting_counterexample :
    ((firstRowLoop [] ⟨[], []⟩).output_rows = [] ∧ fields [] = [[]]) ∧
    ((firstRowLoop ("a,".toList) ⟨[], []⟩).output_rows = ["a,".toList] ∧
      fields ("a,".toList) = ["a".toList, []]) := by
  decide

/-- C8, amended: for every line that is not of length zero and does not end
with a comma, the elements pushed by the first-row loop are the line split on
every comma, and the body-row loop, run on a queue of as many builders,
appends to the builders a comma and these same fields, in order; a
zero-length line yields no field: a zero-length first line initialises the
accumulator with `N = 0`, and a zero-length later line leaves it as it is. -/
theorem field_splitting (line : Str) (hl : line ≠ []) (hc : noTrailingComma line) :
    (firstRowLoop line ⟨[], []⟩).output_rows = fields line ∧
    (∀ q : List Str, q.length = (fields line).length →
      bodyRowLoop q.length line ⟨q, []⟩ 0 = .ok ⟨appendRow q (fields line), []⟩) ∧
    (firstRowLoop [] ⟨[], []⟩).output_rows.length = 0 ∧
    (∀ (N : Nat) (v : Locals), bodyRowLoop N [] v 0 = .ok v) := by
  have ht := tokens_eq_fields line hl hc
  refine ⟨by rw [firstRowLoop_init, ht], ?_, rfl, fun N v => rfl⟩
  intro q hq
  have hq1 : q ≠ [] := by
    intro hn
    have h1 := tokens_ne_nil line hl
    rw [ht] at h1
    rw [hn] at hq
    exact h1 (List.length_eq_zero.1 hq.symm)
  rw [bodyRowLoop_row line q hl hq1, ht]
  simp [hq]

/-- A line with an empty field between two commas. -/
theorem field_splitting_witness :
    (firstRowLoop ("a,,b".toList) ⟨[], []⟩).output_rows = fields ("a,,b".toList) ∧
    (∀ q : List Str, q.length = (fields ("a,,b".toList)).length →
      bodyRowLoop q.length ("a,,b".toList) ⟨q, []⟩ 0
        = .ok ⟨appendRow q (fields ("a,,b".toList)), []⟩) ∧
    (firstRowLoop [] ⟨[], []⟩).output_rows.length = 0 ∧
    (∀ (N : Nat) (v : Locals), bodyRowLoop N [] v 0 = .ok v) :=
  field_splitting ("a,,b".toList) (by decide) (by decide)

/-! ## The empty-accumulator error (C9) -/

/-- C9, as stated, fails: on a zero-length first line followed by the line
`a` the run ends with status 4. -/
theorem empty_queue_counterexample : run ("\na".toList) = some ⟨4, none⟩ := by
  decide

/-- C9, amended: for every input text (the input file opening), the run
ends with status 4 exactly when the first line is of length zero and some
later line is not; in particular it never does when the first line is not of
length zero. -/
theorem empty_queue_exactly (e : Env) (t : Str) (hargc : 3 ≤ e.argc) (hin : e.input = some t) :
    ∃ r, main e = some r ∧
      (r.status = 4 ↔ ∃ ls, lines t = [] :: ls ∧ ∃ l ∈ ls, l ≠ []) := by
  refine ⟨_, main_eq_process e t hargc hin, ?_⟩
  cases hl : lines t with
  | nil => simp [process]
  | cons l0 ls =>
    by_cases h0 : l0 = []
    · subst h0
      by_cases hall : ∀ l ∈ ls, l = []
      · rw [process_blank_first_ok _ _ hall]
        have hs := afterInput_status e []
        constructor
        · intro h4
          omega
        · rintro ⟨ls1, h1, l, hmem, hne⟩
          obtain ⟨-, rfl⟩ := List.cons.inj h1
          exact absurd (hall l hmem) hne
      · have hex : ∃ l ∈ ls, l ≠ [] := by push_neg at hall; exact hall
        rw [process_blank_first_err _ _ hex]
        exact ⟨fun _ => ⟨ls, rfl, hex⟩, fun _ => rfl⟩
    · have hrhs : ¬ ∃ ls1, l0 :: ls = [] :: ls1 ∧ ∃ l ∈ ls1, l ≠ [] := by
        rintro ⟨ls1, h1, -⟩
        exact h0 (List.cons.inj h1).1
      by_cases hm : ∀ l ∈ ls, l ≠ [] → (tokens l).length = (tokens l0).length
      · rw [process_ok _ _ _ h0 hm]
        have hs := afterInput_status e
          ((transpose (tokens l0).length (tokens l0 :: tokenRows ls)).map joinComma)
        constructor
        · intro h4
          omega
        · intro h
          exact absurd h hrhs
      · rw [process_mismatch _ _ _ h0 (by push_neg at hm; exact hm)]
        constructor
        · intro h4
          simp at h4
        · intro h
          exact absurd h hrhs

/-- The run on a zero-length first line followed by the line `a`. -/
theorem empty_queue_exactly_witness :
    ∃ r, main ⟨3, some ("\na".toList), true, none⟩ = some r ∧
      (r.status = 4 ↔ ∃ ls, lines ("\na".toList) = [] :: ls ∧ ∃ l ∈ ls, l ≠ []) :=
  empty_queue_exactly ⟨3, some ("\na".toList), true, none⟩ ("\na".toList) (by decide) rfl

/-! ## Empty input (C10) -/

/-- C10: on an input of zero bytes the first `getline` leaves the stream
failed, and the run ends there with status 3, the output never opened. -/
theorem empty_input (e : Env) (hargc : 3 ≤ e.argc) (hin : e.input = some []) :
    (getline (IStream.ofText []) []).1.fail = true ∧ main e = some ⟨3, none⟩ := by
  have hlt : ¬ e.argc < 3 := by omega
  refine ⟨by decide, ?_⟩
  simp [main, hlt, hin, getline, IStream.ofText, IStream.good, IStream.fail, extractLine]

/-- The run on the empty text. -/
theorem empty_input_witness :
    (getline (IStream.ofText []) []).1.fail = true ∧ run [] = some ⟨3, none⟩ :=
  empty_input ⟨3, some [], true, none⟩ (by decide) rfl

/-! ## Write failure (C11) -/

theorem emit_not_good : ∀ (q : List Str) (c : Str) (room : Option Nat),
    emit q ⟨c, false, room⟩ = ⟨c, false, room⟩
  | [], _, _ => rfl
  | _ :: _, _, _ => by simp [emit]

/-- When the device accepts `k` lines and there are more to write, emission
stops with the first `k` lines written and the stream no longer good. -/
theorem emit_room : ∀ (q : List Str) (c : Str) (k : Nat), k < q.length →
    emit q ⟨c, true, some k⟩ = ⟨c ++ unlines (q.take k), false, some 0⟩
  | [], _, _, h => by simp at h
  | l :: q, c, 0, _ => by
    simp [emit, OStream.putLine, emit_not_good, unlines]
  | l :: q, c, k + 1, h => by
    have ih := emit_room q (c ++ l ++ ['\n']) k (by simpa using h)
    simp only [emit, OStream.putLine, if_true, ih]
    simp [unlines]

/-- Whatever the builders hold, a write failure after `k` of them leaves the
first `k` lines in the output and the status 0. -/
theorem afterInput_room (e : Env) (q : List Str) (k : Nat) (hopen : e.outputOpens = true)
    (hroom : e.outputRoom = some k) (hk : k < q.length) :
    afterInput e q = ⟨0, some (unlines (q.take k))⟩ := by
  simp [afterInput, hopen, hroom, OStream.opened, emit_room q [] k hk]

/-- C11 at the input `a,b` with an output that accepts one line: emission
stops after the line `a`, which stays written, and `main` returns status 0. -/
theorem write_failure_unreported :
    main ⟨3, some ("a,b\n".toList), true, some 1⟩ = some ⟨0, some ("a\n".toList)⟩ := by
  decide

/-! ## The accumulator at row boundaries (C12) -/

theorem appendRow_getD (q row : List Str) (i : Nat) (h : row.length = q.length)
    (hi : i < q.length) :
    (appendRow q row).getD i [] = q.getD i [] ++ ',' :: row.getD i [] := by
  have hi2 : i < row.length := by omega
  have hi3 : i < (appendRow q row).length := by rw [appendRow_length q row h]; exact hi
  rw [List.getD_eq_getElem _ _ hi3, List.getD_eq_getElem _ _ hi, List.getD_eq_getElem _ _ hi2]
  simp [appendRow]

/-- One body row, processed without failing on a queue of `queue_size`
builders, leaves `queue_size` builders, each an extension of the one that
was at its place. -/
theorem bodyRowLoop_invariant (N : Nat) (row : Str) (v v1 : Locals)
    (hlen : v.output_rows.length = N) (hok : bodyRowLoop N row v 0 = .ok v1) :
    v1.output_rows.length = N ∧
      ∀ i, i < N → v.output_rows.getD i [] <+: v1.output_rows.getD i [] := by
  obtain ⟨q, el⟩ := v
  simp only at hlen
  by_cases hrow : row = []
  · subst hrow
    simp only [bodyRowLoop, Except.ok.injEq] at hok
    subst hok
    exact ⟨hlen, fun i _ => List.prefix_refl _⟩
  · by_cases hq : q = []
    · subst hq
      rw [bodyRowLoop_empty_queue N row el 0 hrow] at hok
      simp at hok
    · rw [bodyRowLoop_tokens N row q el 0 hrow hq] at hok
      have hne := tokens_ne_nil row hrow
      have hplen : ((el ++ (tokens row).headD []) :: (tokens row).tail).length
          = (tokens row).length := by
        cases h : tokens row with
        | nil => exact absurd h hne
        | cons x xs => simp
      by_cases hN : 0 + (tokens row).length = N
      · have hpq : ((el ++ (tokens row).headD []) :: (tokens row).tail).length = q.length := by
          rw [hplen, hlen]; omega
        have hrot := foldl_rotate_append _ q [] hpq
        simp only [List.append_nil, List.nil_append] at hrot
        simp only [hN, ne_eq, not_true_eq_false, if_false, Except.ok.injEq] at hok
        subst hok
        simp only [hrot]
        refine ⟨by rw [appendRow_length q _ hpq, hlen], fun i hi => ?_⟩
        rw [appendRow_getD q _ i hpq (by omega)]
        exact List.prefix_append _ _
      · have hN1 : ¬ (tokens row).length = N := by omega
        simp [hN1] at hok

/-- The body rows processed so far leave the queue with `queue_size`
builders. -/
theorem foldRows_length (N : Nat) : ∀ (rows : List Str) (v v1 : Locals),
    v.output_rows.length = N → foldRows N rows v = .ok v1 → v1.output_rows.length = N
  | [], v, v1, hlen, h => by
    simp only [foldRows, Except.ok.injEq] at h
    subst h
    exact hlen
  | r :: rs, v, v1, hlen, h => by
    rw [foldRows] at h
    cases hb : bodyRowLoop N r v 0 with
    | error c => simp [hb] at h
    | ok v2 =>
      simp only [hb] at h
      exact foldRows_length N rs v2 v1 (bodyRowLoop_invariant N r v v2 hlen hb).1 h

/-- C12: let `N` be the number of entries that the first row `l0` created.
After any body rows processed without failing (state `v`), a further body row
processed without failing (state `v1`) leaves exactly `N` entries in the
queue, and for every `i < N` the entry at place `i` before the row is a
prefix of the entry at place `i` after it: the builder of column `i` is still
at place `i`, and it was only appended to. -/
theorem accumulator_invariant (l0 : Str) (rows : List Str) (row : Str) (v v1 : Locals)
    (hbefore : foldRows (firstRowLoop l0 ⟨[], []⟩).output_rows.length rows
      (firstRowLoop l0 ⟨[], []⟩) = .ok v)
    (hrow : bodyRowLoop (firstRowLoop l0 ⟨[], []⟩).output_rows.length row v 0 = .ok v1) :
    v.output_rows.length = (firstRowLoop l0 ⟨[], []⟩).output_rows.length ∧
    v1.output_rows.length = (firstRowLoop l0 ⟨[], []⟩).output_rows.length ∧
    ∀ i, i < (firstRowLoop l0 ⟨[], []⟩).output_rows.length →
      v.output_rows.getD i [] <+: v1.output_rows.getD i [] := by
  have hv := foldRows_length _ rows _ v rfl hbefore
  exact ⟨hv, bodyRowLoop_invariant _ row v v1 hv hrow⟩

/-- After the first row `a,b` and the body row `1,2`, the body row `3,4`. -/
theorem accumulator_invariant_witness :
    (⟨["a,1".toList, "b,2".toList], []⟩ : Locals).output_rows.length
        = (firstRowLoop ("a,b".toList) ⟨[], []⟩).output_rows.length ∧
    (⟨["a,1,3".toList, "b,2,4".toList], []⟩ : Locals).output_rows.length
        = (firstRowLoop ("a,b".toList) ⟨[], []⟩).output_rows.length ∧
    ∀ i, i < (firstRowLoop ("a,b".toList) ⟨[], []⟩).output_rows.length →
      (⟨["a,1".toList, "b,2".toList], []⟩ : Locals).output_rows.getD i []
        <+: (⟨["a,1,3".toList, "b,2,4".toList], []⟩ : Locals).output_rows.getD i [] :=
  accumulator_invariant ("a,b".toList) ["1,2".toList] ("3,4".toList)
    ⟨["a,1".toList, "b,2".toList], []⟩ ⟨["a,1,3".toList, "b,2,4".toList], []⟩
    rfl rfl

/-! ## Round trip without empty fields (C13) -/

theorem getLast?_ne_nil_of_forall (r : List Str) (h : ∀ f ∈ r, f ≠ []) :
    r.getLast? ≠ some [] :=
  fun hl => h [] (List.mem_of_getLast?_eq_some hl) rfl

/-- C13: for `R ≥ 1`, `C ≥ 1` and an `R`-by-`C` matrix whose fields are not
empty and contain no comma and no newline, the run on the text of the matrix
returns status 0 and writes the text of the transpose, and the run on that
output returns status 0 and writes exactly the original text. -/
theorem round_trip_nonempty (R C : Nat) (m : List (List Str)) (hR : 1 ≤ R) (hC : 1 ≤ C)
    (hm : IsMatrix R C m) (hfields : ∀ r ∈ m, ∀ f ∈ r, f ≠ []) :
    run (csvText m) = some ⟨0, some (csvText (transpose C m))⟩ ∧
      run (csvText (transpose C m)) = some ⟨0, some (csvText m)⟩ := by
  have hne : m ≠ [] := by
    intro hn
    have := hm.1
    rw [hn] at this
    simp at this
    omega
  have hT := isMatrix_transpose R C m hm
  have hTne : transpose C m ≠ [] := by
    intro hn
    have := hT.1
    rw [hn] at this
    simp at this
    omega
  have hcol : ∀ r ∈ m, r.getLast? ≠ some [] :=
    fun r hr => getLast?_ne_nil_of_forall r (hfields r hr)
  have hrow : ∀ r, m.getLast? = some r → ∀ f ∈ r, f ≠ [] :=
    fun r hr => hfields r (List.mem_of_getLast?_eq_some hr)
  refine ⟨run_csvText C m hne hC hm.2.1 hm.2.2 hcol, ?_⟩
  have h2 := run_csvText R (transpose C m) hTne hR hT.2.1 hT.2.2
    (transpose_last_fields C m hm.2.1 hrow)
  rw [transpose_transpose R C m hm.1 hm.2.1] at h2
  exact h2

/-- A 2-by-3 matrix of non-empty fields and its transpose. -/
theorem round_trip_nonempty_witness :
    run ("x,y,z\n7,8,9\n".toList) = some ⟨0, some ("x,7\ny,8\nz,9\n".toList)⟩ ∧
      run ("x,7\ny,8\nz,9\n".toList) = some ⟨0, some ("x,y,z\n7,8,9\n".toList)⟩ :=
  round_trip_nonempty 2 3
    [["x".toList, "y".toList, "z".toList], ["7".toList, "8".toList, "9".toList]]
    (by decide) (by decide) (by decide) (by decide)

/-! ## The exact rejection condition (C14) -/

theorem splitOn_length (d : Char) : ∀ (s : Str), (splitOn d s).length = s.count d + 1
  | [] => rfl
  | c :: cs => by
    have ih := splitOn_length d cs
    have hne := splitOn_ne_nil d cs
    by_cases hc : c = d
    · subst hc
      simp [splitOn, ih]
    · have hdc : d ≠ c := fun h => hc h.symm
      have htail : (splitOn d cs).tail.length + 1 = (splitOn d cs).length := by
        cases h : splitOn d cs with
        | nil => exact absurd h hne
        | cons x xs => simp
      rw [splitOn, List.count_cons_of_ne hdc]
      simp only [hc, if_false, List.length_cons, htail, ih]

/-- The number of tokens of a clean line is its number of commas plus one. -/
theorem tokens_length_of_clean (l : Str) (hl : l ≠ []) (hc : noTrailingComma l) :
    (tokens l).length = l.count ',' + 1 := by
  rw [tokens_eq_fields l hl hc, fields, splitOn_length]

/-- C14: for every input with at least one line in which every line is
non-empty and no line ends with a comma, the run returns status 5 if and only
if some line after the first contains a number of commas different from the
first line's, and it returns status 0 otherwise. -/
theorem exact_rejection (t l0 : Str) (ls : List Str) (hl : lines t = l0 :: ls)
    (hclean : ∀ l ∈ lines t, l ≠ [] ∧ noTrailingComma l) :
    ∃ r, run t = some r ∧
      (r.status = 5 ↔ ∃ l ∈ ls, l.count ',' ≠ l0.count ',') ∧
      ((¬ ∃ l ∈ ls, l.count ',' ≠ l0.count ',') → r.status = 0) := by
  rw [hl] at hclean
  obtain ⟨h0, hc0⟩ := hclean l0 (by simp)
  have hcl : ∀ l ∈ ls, l ≠ [] ∧ noTrailingComma l :=
    fun l h => hclean l (List.mem_cons_of_mem _ h)
  refine ⟨_, run_eq_process t, ?_⟩
  rw [hl]
  by_cases hbad : ∃ l ∈ ls, l.count ',' ≠ l0.count ','
  · have hmis : ∃ l ∈ ls, l ≠ [] ∧ (tokens l).length ≠ (tokens l0).length := by
      obtain ⟨l, hmem, hcount⟩ := hbad
      refine ⟨l, hmem, (hcl l hmem).1, ?_⟩
      rw [tokens_length_of_clean l (hcl l hmem).1 (hcl l hmem).2,
        tokens_length_of_clean l0 h0 hc0]
      omega
    rw [process_mismatch _ _ _ h0 hmis]
    exact ⟨⟨fun _ => hbad, fun _ => rfl⟩, fun h => absurd hbad h⟩
  · have hok : ∀ l ∈ ls, l ≠ [] → (tokens l).length = (tokens l0).length := by
      intro l hmem _
      rw [tokens_length_of_clean l (hcl l hmem).1 (hcl l hmem).2,
        tokens_length_of_clean l0 h0 hc0]
      have : ¬ l.count ',' ≠ l0.count ',' := fun h => hbad ⟨l, hmem, h⟩
      omega
    rw [process_ok _ _ _ h0 hok, afterInput_run]
    refine ⟨⟨fun h => ?_, fun h => absurd h hbad⟩, fun _ => rfl⟩
    simp at h

/-- An input whose third line has one comma more than the first. -/
theorem exact_rejection_witness :
    ∃ r, run ("a,b\n1,2\n3,4,5\n".toList) = some r ∧
      (r.status = 5 ↔
        ∃ l ∈ ["1,2".toList, "3,4,5".toList], l.count ',' ≠ ("a,b".toList).count ',') ∧
      ((¬ ∃ l ∈ ["1,2".toList, "3,4,5".toList], l.count ',' ≠ ("a,b".toList).count ',') →
        r.status = 0) :=
  exact_rejection ("a,b\n1,2\n3,4,5\n".toList) ("a,b".toList) ["1,2".toList, "3,4,5".toList]
    (by decide) (by decide)

/-! ## Zero-length body lines (C15) -/

/-- The result does not depend on the text in the environment once the
lines are given. -/
theorem process_input_irrelevant (argc : Nat) (x y : Option Str) (opens : Bool)
    (room : Option Nat) (ls : List Str) :
    process ⟨argc, x, opens, room⟩ ls = process ⟨argc, y, opens, room⟩ ls := by
  cases ls with
  | nil => rfl
  | cons l0 ls => simp [process, afterInput]

theorem lines_append_ne_nil (a : Str) : lines (a ++ ['\n']) ≠ [] := by
  intro h
  have := (lines_eq_nil_iff _).1 h
  simp at this

/-- The lines of a text after a newline follow the lines of the text up to
that newline. -/
theorem lines_append_cons_newline (s : Str) : ∀ (a : Str),
    lines (a ++ '\n' :: s) = lines (a ++ ['\n']) ++ lines s
  | [] => by simp [lines]
  | c :: a => by
    have ih := lines_append_cons_newline s a
    by_cases hc : c = '\n'
    · subst hc
      simp [lines, ih]
    · rw [List.cons_append, List.cons_append, lines_cons_of_ne c _ hc, lines_cons_of_ne c _ hc, ih]
      cases h : lines (a ++ ['\n']) with
      | nil => exact absurd h (lines_append_ne_nil a)
      | cons l ls => rfl

/-- A zero-length row among the body rows changes nothing. -/
theorem foldRows_delete_blank (N : Nat) : ∀ (ls1 ls2 : List Str) (v : Locals),
    foldRows N (ls1 ++ [] :: ls2) v = foldRows N (ls1 ++ ls2) v
  | [], ls2, v => by simp [foldRows, bodyRowLoop]
  | r :: ls1, ls2, v => by
    simp only [List.cons_append, foldRows]
    cases bodyRowLoop N r v 0 with
    | error c => rfl
    | ok v1 => exact foldRows_delete_blank N ls1 ls2 v1

theorem process_delete_blank (e : Env) (l0 : Str) (ls1 ls2 : List Str) :
    process e (l0 :: (ls1 ++ [] :: ls2)) = process e (l0 :: (ls1 ++ ls2)) := by
  simp only [process, foldRows_delete_blank]

/-- C15: a zero-length line that comes after the first line is a newline
that directly follows a newline.  In every text `p`, newline, newline, `s` the
second newline ends such a line, and deleting it (the text `p`, newline, `s`,
whose lines are the same but for that one) leaves what `main` returns, exit
status and output text, unchanged, whatever the rest of the environment. -/
theorem zero_length_lines_ignored (argc : Nat) (opens : Bool) (room : Option Nat) (p s : Str) :
    lines (p ++ '\n' :: '\n' :: s) = lines (p ++ ['\n']) ++ [] :: lines s ∧
    lines (p ++ '\n' :: s) = lines (p ++ ['\n']) ++ lines s ∧
    ∃ r, main ⟨argc, some (p ++ '\n' :: '\n' :: s), opens, room⟩ = some r ∧
      main ⟨argc, some (p ++ '\n' :: s), opens, room⟩ = some r := by
  have h1 : lines (p ++ '\n' :: '\n' :: s) = lines (p ++ ['\n']) ++ [] :: lines s := by
    rw [lines_append_cons_newline ('\n' :: s) p]
    simp [lines]
  have h2 := lines_append_cons_newline s p
  refine ⟨h1, h2, ?_⟩
  by_cases hargc : argc < 3
  · exact ⟨⟨1, none⟩, by simp [main, hargc], by simp [main, hargc]⟩
  · refine ⟨_, main_eq_process ⟨argc, some (p ++ '\n' :: '\n' :: s), opens, room⟩ _
      (by simp; omega) rfl, ?_⟩
    rw [main_eq_process ⟨argc, some (p ++ '\n' :: s), opens, room⟩ _ (by simp; omega) rfl,
      h1, h2]
    cases h : lines (p ++ ['\n']) with
    | nil => exact absurd h (lines_append_ne_nil p)
    | cons l0 ls1 =>
      rw [List.cons_append, List.cons_append, process_delete_blank,
        process_input_irrelevant argc _ (some (p ++ '\n' :: '\n' :: s))]

/-! ## The final line terminator (C16) -/

theorem lines_append_final_newline : ∀ (t : Str), t ≠ [] → t.getLast? ≠ some '\n' →
    lines (t ++ ['\n']) = lines t
  | [], h, _ => absurd rfl h
  | [c], _, h => by
    have hc : c ≠ '\n' := by simpa using h
    simp [lines, hc]
  | c :: d :: ds, _, h => by
    have ih := lines_append_final_newline (d :: ds) (by simp) (by simpa using h)
    by_cases hc : c = '\n'
    · subst hc
      rw [List.cons_append, lines, lines]
      simp only [if_true, ih]
    · rw [List.cons_append, lines_cons_of_ne c _ hc, lines_cons_of_ne c _ hc, ih]

/-- C16: for every non-empty text that does not end with a newline, the
text and the text followed by one newline have the same lines, and `main`
returns the same exit status and output text on both, whatever the rest of
the environment. -/
theorem final_newline_irrelevant (argc : Nat) (opens : Bool) (room : Option Nat) (t : Str)
    (ht : t ≠ []) (hlast : t.getLast? ≠ some '\n') :
    lines (t ++ ['\n']) = lines t ∧
    ∃ r, main ⟨argc, some t, opens, room⟩ = some r ∧
      main ⟨argc, some (t ++ ['\n']), opens, room⟩ = some r := by
  have h1 := lines_append_final_newline t ht hlast
  refine ⟨h1, ?_⟩
  by_cases hargc : argc < 3
  · exact ⟨⟨1, none⟩, by simp [main, hargc], by simp [main, hargc]⟩
  · refine ⟨_, main_eq_process ⟨argc, some t, opens, room⟩ _ (by simp; omega) rfl, ?_⟩
    rw [main_eq_process ⟨argc, some (t ++ ['\n']), opens, room⟩ _ (by simp; omega) rfl, h1,
      process_input_irrelevant argc _ (some t)]

/-- The scenario of the specification without and with its last newline. -/
theorem final_newline_irrelevant_witness :
    lines ("a,b,c\n1,2,3\n4,5,6".toList ++ ['\n']) = lines ("a,b,c\n1,2,3\n4,5,6".toList) ∧
    ∃ r, main ⟨3, some ("a,b,c\n1,2,3\n4,5,6".toList), true, none⟩ = some r ∧
      main ⟨3, some ("a,b,c\n1,2,3\n4,5,6".toList ++ ['\n']), true, none⟩ = some r :=
  final_newline_irrelevant 3 true none ("a,b,c\n1,2,3\n4,5,6".toList) (by decide) (by decide)

end CSVTranspose
